import Mathlib

/-!
Verification of the deleted-items model (src/model/deleted-items.ts).

The TypeScript class `Model` keeps an in-memory mirror (`state.entries` plus an
auxiliary `Map` called `_entry_cache`) of a persistent key-value store of
deleted-item records.  We embed it as a pure state machine:

* JavaScript object identity is made explicit with a heap: every `Deletion`
  object ever allocated lives in `heap` under a unique allocation id
  (`nextId` is the allocator counter).  `entries` is the list of object ids
  in display order, and `cache` maps a string key to an object id, exactly as
  the `Map<string, Deletion>` maps a key to an object reference.  Mutating a
  field through the cached reference is `heapWrite`, which leaves `entries`
  and `cache` untouched -- precisely the aliasing behaviour of the source.
* The store notification handlers (`kvs.onSet` / `kvs.onDelete`), one step of
  the hydration loop, and the final `ready` flip are the four state
  transitions; `Reachable` closes them under interleaving, which is the
  single-threaded cooperative schedule of the source.
* `Date` values are produced only by `new Date(str)` on the stored timestamp
  string; two equal strings parse to equal dates, so a date is embedded as
  the string it was parsed from (`JSDate`).
-/

/-- A JavaScript `Date` value, represented by the timestamp string it was
parsed from with `new Date(str)`. -/
structure JSDate where
  str : String
deriving DecidableEq

/-- The `DeletedItem` union: `DeletedBookmark {title, url, favIconUrl?}` or
`DeletedFolder {title, children}`.  The source distinguishes the variants by
the presence of a `children` field. -/
inductive DeletedItem where
  | bookmark (title url : String) (favIconUrl : Option String)
  | folder (title : String) (children : List DeletedItem)

mutual

def DeletedItem.hasDecEq : (a b : DeletedItem) → Decidable (a = b)
  | .bookmark t u f, .bookmark t2 u2 f2 =>
    match decEq t t2, decEq u u2, decEq f f2 with
    | isTrue h1, isTrue h2, isTrue h3 => isTrue (by rw [h1, h2, h3])
    | isFalse h1, _, _ => isFalse (by intro h; injection h; contradiction)
    | _, isFalse h2, _ => isFalse (by intro h; injection h; contradiction)
    | _, _, isFalse h3 => isFalse (by intro h; injection h; contradiction)
  | .bookmark _ _ _, .folder _ _ => isFalse (by intro h; exact DeletedItem.noConfusion h)
  | .folder _ _, .bookmark _ _ _ => isFalse (by intro h; exact DeletedItem.noConfusion h)
  | .folder t c, .folder t2 c2 =>
    match decEq t t2, DeletedItem.hasDecEqList c c2 with
    | isTrue h1, isTrue h2 => isTrue (by rw [h1, h2])
    | isFalse h1, _ => isFalse (by intro h; injection h; contradiction)
    | _, isFalse h2 => isFalse (by intro h; injection h; contradiction)

def DeletedItem.hasDecEqList : (as bs : List DeletedItem) → Decidable (as = bs)
  | [], [] => isTrue rfl
  | [], _ :: _ => isFalse (by intro h; exact List.noConfusion h)
  | _ :: _, [] => isFalse (by intro h; exact List.noConfusion h)
  | a :: as, b :: bs =>
    match DeletedItem.hasDecEq a b, DeletedItem.hasDecEqList as bs with
    | isTrue h1, isTrue h2 => isTrue (by rw [h1, h2])
    | isFalse h1, _ => isFalse (by intro h; injection h; contradiction)
    | _, isFalse h2 => isFalse (by intro h; injection h; contradiction)

end

instance : DecidableEq DeletedItem := DeletedItem.hasDecEq

/-- `SourceValue = {deleted_at: string, item: DeletedItem}` (persisted form). -/
structure SourceValue where
  deleted_at : String
  item : DeletedItem
deriving DecidableEq

/-- `Entry<string, SourceValue> = {key, value}` as delivered by the store. -/
structure Entry where
  key : String
  value : SourceValue
deriving DecidableEq

/-- In-memory `Deletion = {key, deleted_at: Date, item}`. -/
structure Deletion where
  key : String
  deleted_at : JSDate
  item : DeletedItem
deriving DecidableEq

/-- The complete in-memory situation of one `Model` object: the observable
`state` (`ready`, `entries`), the `_entry_cache`, and the explicit heap of
`Deletion` objects giving JavaScript object identity. -/
structure MState where
  ready : Bool
  entries : List Nat
  cache : List (String × Nat)
  heap : List (Nat × Deletion)
  nextId : Nat
deriving DecidableEq

/-- `Map.get`: first (and, for states built by `mapSet`, only) binding of a
key in the cache. -/
def mapGet : List (String × Nat) → String → Option Nat
  | [], _ => none
  | p :: ps, k => if p.1 = k then some p.2 else mapGet ps k

/-- `Map.set`: overwrite the binding in place if the key is present,
otherwise append a new binding (JavaScript `Map` preserves first-insertion
order). -/
def mapSet : List (String × Nat) → String → Nat → List (String × Nat)
  | [], k, v => [(k, v)]
  | p :: ps, k, v => if p.1 = k then (k, v) :: ps else p :: mapSet ps k v

/-- `Map.delete`: remove the binding of a key.  A `Map` built by `mapSet`
never holds a duplicate key, so removing every occurrence is that. -/
def mapDelete : List (String × Nat) → String → List (String × Nat)
  | [], _ => []
  | p :: ps, k => if p.1 = k then mapDelete ps k else p :: mapDelete ps k

/-- Dereference an object id in the heap. -/
def heapFind : List (Nat × Deletion) → Nat → Option Deletion
  | [], _ => none
  | p :: ps, i => if p.1 = i then some p.2 else heapFind ps i

/-- Mutate the object with the given id in place (field assignment through a
reference in JavaScript). -/
def heapWrite (h : List (Nat × Deletion)) (i : Nat) (f : Deletion → Deletion) :
    List (Nat × Deletion) :=
  h.map (fun p => if p.1 = i then (p.1, f p.2) else p)

/-- `Set(keys).has k` for the delete handler. -/
def hasKey : List String → String → Bool
  | [], _ => false
  | k :: ks, k2 => if k = k2 then true else hasKey ks k2

/-- Modelled from the spec: `friendlyFolderName` (imported from
`../stash`, which is not under src/).  The spec describes it only as
external "human-readable name formatting for folder-type items" that
substitutes "a display-formatted title".  We model it as the stash-name
rewrite the surrounding application uses: a title carrying the saved-name
marker prefix is rewritten to a display form, any other title is returned
unchanged. -/
def friendlyFolderName (s : String) : String :=
  if s.take 6 = savedMarker then displayMarker ++ s.drop 6 else s
where
  savedMarker : String := "saved-"
  displayMarker : String := "Saved "

/-- `src2state`: derive the in-memory `Deletion` from a persisted entry.
Folder-like items (those with a `children` field) get the display-formatted
title at the top level; `children` is taken as stored; bookmark-like items
are taken as stored.  The formatter is a parameter so that theorems quantify
over every possible external `friendlyFolderName`. -/
def src2state (friendly : String → String) (e : Entry) : Deletion :=
  { key := e.key
    deleted_at := ⟨e.value.deleted_at⟩
    item :=
      match e.value.item with
      | .folder title children => .folder (friendly title) children
      | i => i }

/-- Allocate a fresh `Deletion` object on the heap, returning its id. -/
def allocate (s : MState) (d : Deletion) : MState × Nat :=
  ({ s with heap := s.heap ++ [(s.nextId, d)], nextId := s.nextId + 1 }, s.nextId)

/-- One record of the `kvs.onSet` handler: look the key up in the cache; if
present, overwrite the cached object fields `deleted_at` and `item` in place;
if absent, derive with `src2state`, insert into the cache and push onto
`entries`. -/
def onSet1 (friendly : String → String) (s : MState) (r : Entry) : MState :=
  match mapGet s.cache r.key with
  | some id =>
      { s with
        heap := heapWrite s.heap id (fun d =>
          { d with deleted_at := ⟨r.value.deleted_at⟩, item := r.value.item }) }
  | none =>
      let d := src2state friendly r
      let a := allocate s d
      { a.1 with
        cache := mapSet a.1.cache r.key a.2,
        entries := a.1.entries ++ [a.2] }

/-- The `kvs.onSet` handler over a notification batch, in array order. -/
def onSet (friendly : String → String) (s : MState) (records : List Entry) : MState :=
  records.foldl (onSet1 friendly) s

/-- The predicate of the `onDelete` filter: keep a listed object when its
`key` field is not in the deleted set (`({key}) => !kset.has(key)`). -/
def keepOnDelete (hp : List (Nat × Deletion)) (keys : List String) (i : Nat) : Bool :=
  match heapFind hp i with
  | some d => !(hasKey keys d.key)
  | none => true

/-- The `kvs.onDelete` handler: delete every key of the batch from the cache,
then replace `entries` by its filtration to the objects whose key is not in
the batch. -/
def onDelete (s : MState) (keys : List String) : MState :=
  { s with
    cache := keys.foldl mapDelete s.cache,
    entries := s.entries.filter (keepOnDelete s.heap keys) }

/-- One iteration of the hydration loop: derive with `src2state`, push onto
`entries`, and set the cache binding -- with no cache lookup first. -/
def hydrate1 (friendly : String → String) (s : MState) (r : Entry) : MState :=
  let d := src2state friendly r
  let a := allocate s d
  { a.1 with
    entries := a.1.entries ++ [a.2],
    cache := mapSet a.1.cache r.key a.2 }

/-- The whole hydration task: fold the records the store listing yielded, and
flip `ready` to true only when the iteration finished without raising
(`ok = true`); on an error the loop stops after the records already
processed and `ready` is left alone. -/
def hydrationRun (friendly : String → String) (s : MState) (records : List Entry)
    (ok : Bool) : MState :=
  let fin := records.foldl (hydrate1 friendly) s
  if ok then { fin with ready := true } else fin

/-- The state the constructor builds: `ready: false`, `entries: []`, an empty
cache, and an empty heap. -/
def initState : MState :=
  { ready := false, entries := [], cache := [], heap := [], nextId := 0 }

/-- `Model.add`: build the key from the timestamp string and the random
suffix, build the persisted entry, call the `set` method of the store, and
return the entry.  The clock reading (`new Date().toISOString()`), the
random suffix (`makeRandomString(4)`, external to src/), and the outcome of
the store write are parameters; the in-memory state is threaded through
untouched because the source never mentions it on this path. -/
def add {ε : Type} (now rand : String) (item : DeletedItem)
    (setResult : Except ε Unit) (s : MState) : Except ε Entry × MState :=
  let deleted_at := now
  let key := deleted_at ++ keySep ++ rand
  let entry : Entry := { key := key, value := { deleted_at := deleted_at, item := item } }
  match setResult with
  | .ok _ => (.ok entry, s)
  | .error e => (.error e, s)
where
  keySep : String := "-"

/-- `Model.drop`: call the `delete` method of the store for the single key;
the in-memory state is threaded through untouched. -/
def drop {ε : Type} (key : String) (delResult : Except ε Unit) (s : MState) :
    Except ε Unit × MState :=
  (delResult, s)

/-- The sequence of `Deletion` values the application reads through
`state.entries` (each id dereferenced in the heap). -/
def entryVals (s : MState) : List Deletion :=
  s.entries.filterMap (fun i => heapFind s.heap i)

/-- The keys occurring in `state.entries`. -/
def entryKeys (s : MState) : List String :=
  (entryVals s).map (fun d => d.key)

/-- The keys of the `_entry_cache`. -/
def cacheKeys (s : MState) : List String :=
  s.cache.map (fun p => p.1)

/-- The states reachable from the freshly constructed model by any
interleaving of hydration-loop iterations, `onSet` notification batches,
`onDelete` notification batches, and hydration completion. -/
inductive Reachable (friendly : String → String) : MState → Prop
  | init : Reachable friendly initState
  | set {s} (records : List Entry) :
      Reachable friendly s → Reachable friendly (onSet friendly s records)
  | del {s} (keys : List String) :
      Reachable friendly s → Reachable friendly (onDelete s keys)
  | hyd {s} (r : Entry) :
      Reachable friendly s → Reachable friendly (hydrate1 friendly s r)
  | fin {s} :
      Reachable friendly s → Reachable friendly { s with ready := true }

/-- The structural invariant the source maintains between `entries`, the
cache and the heap: every listed id is an allocated object; every cache
binding points at a listed object whose key field is the binding key; every
listed object has its key bound in the cache; and the allocator counter
bounds every id in use. -/
structure ModelInv (s : MState) : Prop where
  entriesAlloc : ∀ i ∈ s.entries, ∃ d, heapFind s.heap i = some d
  cacheWf : ∀ p ∈ s.cache,
    p.2 ∈ s.entries ∧ ∃ d, heapFind s.heap p.2 = some d ∧ d.key = p.1
  entryKeysCached : ∀ i ∈ s.entries, ∀ d, heapFind s.heap i = some d → d.key ∈ cacheKeys s
  entriesLt : ∀ i ∈ s.entries, i < s.nextId
  heapLt : ∀ p ∈ s.heap, p.1 < s.nextId

/-! Concrete sample data used to exercise the operations. -/

/-- An ISO-8601 clock reading. -/
def tsA : String := "2024-01-01T00:00:00.000Z"

/-- The clock reading one millisecond later. -/
def tsB : String := "2024-01-01T00:00:00.001Z"

/-- A random 4-character key suffix. -/
def randZ : String := "zzzz"

/-- Another random 4-character key suffix, smaller than `randZ`. -/
def randA : String := "aaaa"

/-- A store key. -/
def keyK : String := "k"

/-- A key bound nowhere in the sample states. -/
def keyM : String := "m"

/-- A stored folder title carrying the saved-name marker. -/
def rawTitle : String := "saved-x"

/-- A bookmark title. -/
def bTitle : String := "A"

/-- A bookmark url. -/
def sampleUrl : String := "http://x"

/-- A bookmark-like deleted item. -/
def sampleItem : DeletedItem := .bookmark bTitle sampleUrl none

/-- A persisted entry holding a folder-like item under `keyK`. -/
def recK : Entry := { key := keyK, value := { deleted_at := tsA, item := .folder rawTitle [] } }

/-- A persisted entry holding a bookmark-like item under `keyK`. -/
def recB : Entry := { key := keyK, value := { deleted_at := tsA, item := sampleItem } }

/-- The state after the fresh model processes one `onSet` batch for `recK`. -/
def s1K : MState := onSet friendlyFolderName initState [recK]

/-! ### Lemmas about the cache map, the heap and key sets -/

theorem mapGet_mapSet_self (c : List (String × Nat)) (k : String) (v : Nat) :
    mapGet (mapSet c k v) k = some v := by
  induction c with
  | nil => simp [mapSet, mapGet]
  | cons p ps ih =>
    by_cases h : p.1 = k
    · simp [mapSet, mapGet, h]
    · simp [mapSet, mapGet, h, ih]

theorem mem_mapSet {c : List (String × Nat)} {k : String} {v : Nat} {p : String × Nat}
    (h : p ∈ mapSet c k v) : p = (k, v) ∨ p ∈ c := by
  induction c with
  | nil => simpa [mapSet] using h
  | cons q qs ih =>
    by_cases hq : q.1 = k
    · simp only [mapSet, hq, if_pos rfl] at h
      rcases List.mem_cons.mp h with h | h
      · exact Or.inl h
      · exact Or.inr (List.mem_cons_of_mem _ h)
    · simp only [mapSet, hq, if_neg hq] at h
      rcases List.mem_cons.mp h with h | h
      · exact Or.inr (h ▸ List.mem_cons_self _ _)
      · rcases ih h with h | h
        · exact Or.inl h
        · exact Or.inr (List.mem_cons_of_mem _ h)

theorem mem_keys_mapSet_of {c : List (String × Nat)} {x k : String} {v : Nat}
    (h : x ∈ c.map (fun p => p.1)) : x ∈ (mapSet c k v).map (fun p => p.1) := by
  induction c with
  | nil => simp at h
  | cons q qs ih =>
    by_cases hq : q.1 = k
    · simp only [mapSet, if_pos hq, List.map_cons]
      simp only [List.map_cons] at h
      rcases List.mem_cons.mp h with h | h
      · exact List.mem_cons.mpr (Or.inl (h.trans hq))
      · exact List.mem_cons_of_mem _ h
    · simp only [mapSet, if_neg hq, List.map_cons]
      simp only [List.map_cons] at h
      rcases List.mem_cons.mp h with h | h
      · exact List.mem_cons.mpr (Or.inl h)
      · exact List.mem_cons_of_mem _ (ih h)

theorem self_mem_keys_mapSet (c : List (String × Nat)) (k : String) (v : Nat) :
    k ∈ (mapSet c k v).map (fun p => p.1) := by
  induction c with
  | nil => simp [mapSet]
  | cons q qs ih =>
    by_cases hq : q.1 = k
    · simp [mapSet, hq]
    · simp only [mapSet, if_neg hq, List.map_cons]
      exact List.mem_cons_of_mem _ ih

theorem mapGet_none_iff {c : List (String × Nat)} {k : String} :
    mapGet c k = none ↔ ∀ p ∈ c, p.1 ≠ k := by
  induction c with
  | nil => simp [mapGet]
  | cons q qs ih =>
    by_cases hq : q.1 = k
    · simp [mapGet, hq]
    · simp [mapGet, hq, ih]

theorem mapDelete_of_get_none {c : List (String × Nat)} {k : String}
    (h : mapGet c k = none) : mapDelete c k = c := by
  induction c with
  | nil => rfl
  | cons q qs ih =>
    have hq : q.1 ≠ k := (mapGet_none_iff.mp h) q (List.mem_cons_self _ _)
    have hqs : mapGet qs k = none := by
      rw [mapGet_none_iff]
      exact fun p hp => (mapGet_none_iff.mp h) p (List.mem_cons_of_mem _ hp)
    simp [mapDelete, hq, ih hqs]

theorem mem_mapDelete {c : List (String × Nat)} {k : String} {p : String × Nat} :
    p ∈ mapDelete c k ↔ p ∈ c ∧ p.1 ≠ k := by
  induction c with
  | nil => simp [mapDelete]
  | cons q qs ih =>
    by_cases hq : q.1 = k
    · rw [mapDelete, if_pos hq, ih]
      constructor
      · exact fun h => ⟨List.mem_cons_of_mem _ h.1, h.2⟩
      · rintro ⟨hmem, hne⟩
        rcases List.mem_cons.mp hmem with h | h
        · exact absurd (h ▸ hq) hne
        · exact ⟨h, hne⟩
    · rw [mapDelete, if_neg hq]
      constructor
      · intro h
        rcases List.mem_cons.mp h with h | h
        · exact ⟨h ▸ List.mem_cons_self _ _, h ▸ hq⟩
        · exact ⟨List.mem_cons_of_mem _ (ih.mp h).1, (ih.mp h).2⟩
      · rintro ⟨hmem, hne⟩
        rcases List.mem_cons.mp hmem with h | h
        · exact h ▸ List.mem_cons_self _ _
        · exact List.mem_cons_of_mem _ (ih.mpr ⟨h, hne⟩)

theorem hasKey_eq_true_iff {ks : List String} {x : String} :
    hasKey ks x = true ↔ x ∈ ks := by
  induction ks with
  | nil => simp [hasKey]
  | cons k ks ih =>
    by_cases hk : k = x
    · simp [hasKey, hk]
    · simp only [hasKey, if_neg hk, ih, List.mem_cons]
      exact ⟨Or.inr, fun h => h.elim (fun h => absurd h.symm hk) id⟩

theorem hasKey_eq_false_iff {ks : List String} {x : String} :
    hasKey ks x = false ↔ x ∉ ks := by
  rw [← hasKey_eq_true_iff]
  cases hasKey ks x <;> simp

theorem mem_foldl_mapDelete {ks : List String} {c : List (String × Nat)} {p : String × Nat} :
    p ∈ ks.foldl mapDelete c ↔ p ∈ c ∧ hasKey ks p.1 = false := by
  induction ks generalizing c with
  | nil => simp [hasKey]
  | cons k ks ih =>
    rw [List.foldl_cons, ih, mem_mapDelete]
    by_cases hk : k = p.1
    · simp [hasKey, hk]
    · simp only [hasKey, if_neg hk]
      exact ⟨fun h => ⟨h.1.1, h.2⟩, fun h => ⟨⟨h.1, fun he => hk he.symm⟩, h.2⟩⟩

theorem heapFind_append_some {h l : List (Nat × Deletion)} {i : Nat} {d : Deletion}
    (hf : heapFind h i = some d) : heapFind (h ++ l) i = some d := by
  induction h with
  | nil => simp [heapFind] at hf
  | cons q qs ih =>
    by_cases hq : q.1 = i
    · rw [heapFind, if_pos hq] at hf
      rw [List.cons_append, heapFind, if_pos hq]
      exact hf
    · rw [heapFind, if_neg hq] at hf
      rw [List.cons_append, heapFind, if_neg hq]
      exact ih hf

theorem heapFind_append_none {h l : List (Nat × Deletion)} {i : Nat}
    (hf : heapFind h i = none) : heapFind (h ++ l) i = heapFind l i := by
  induction h with
  | nil => simp
  | cons q qs ih =>
    by_cases hq : q.1 = i
    · rw [heapFind, if_pos hq] at hf
      exact absurd hf (by simp)
    · rw [heapFind, if_neg hq] at hf
      rw [List.cons_append, heapFind, if_neg hq]
      exact ih hf

theorem heapFind_eq_none {h : List (Nat × Deletion)} {i : Nat}
    (hf : ∀ p ∈ h, p.1 ≠ i) : heapFind h i = none := by
  induction h with
  | nil => rfl
  | cons q qs ih =>
    rw [heapFind, if_neg (hf q (List.mem_cons_self _ _))]
    exact ih fun p hp => hf p (List.mem_cons_of_mem _ hp)

theorem heapFind_heapWrite (h : List (Nat × Deletion)) (i : Nat) (f : Deletion → Deletion)
    (j : Nat) :
    heapFind (heapWrite h i f) j =
      if j = i then (heapFind h j).map f else heapFind h j := by
  induction h with
  | nil => by_cases hji : j = i <;> simp [heapWrite, heapFind, hji]
  | cons q qs ih =>
    have hw : heapWrite (q :: qs) i f
        = (if q.1 = i then (q.1, f q.2) else q) :: heapWrite qs i f := by
      simp [heapWrite]
    rw [hw]
    by_cases hqi : q.1 = i
    · by_cases hji : j = i
      · subst hji
        rw [if_pos hqi, heapFind, if_pos hqi, if_pos rfl, heapFind, if_pos hqi]
        rfl
      · have hqj : q.1 ≠ j := fun he => hji ((he.symm.trans hqi))
        have hij : i ≠ j := fun he => hji he.symm
        rw [if_pos hqi]
        simp [heapFind, hqj, hji, ih, hqi, hij]
    · rw [if_neg hqi]
      by_cases hqj : q.1 = j
      · have hji : j ≠ i := fun he => hqi (hqj.trans he)
        rw [heapFind, if_pos hqj, if_neg hji, heapFind, if_pos hqj]
      · rw [heapFind, if_neg hqj, ih]
        by_cases hji : j = i
        · rw [if_pos hji, if_pos hji, heapFind, if_neg hqj]
        · rw [if_neg hji, if_neg hji, heapFind, if_neg hqj]

theorem mem_heapWrite {h : List (Nat × Deletion)} {i : Nat} {f : Deletion → Deletion}
    {p : Nat × Deletion} (hp : p ∈ heapWrite h i f) : ∃ q ∈ h, p.1 = q.1 := by
  rcases List.mem_map.mp hp with ⟨q, hq, he⟩
  refine ⟨q, hq, ?_⟩
  by_cases hqi : q.1 = i
  · rw [if_pos hqi] at he
    rw [← he]
  · rw [if_neg hqi] at he
    rw [← he]

theorem onSet1_ready (friendly : String → String) (s : MState) (r : Entry) :
    (onSet1 friendly s r).ready = s.ready := by
  rw [onSet1]
  cases mapGet s.cache r.key <;> rfl

theorem onSet_ready (friendly : String → String) (records : List Entry) :
    ∀ s : MState, (onSet friendly s records).ready = s.ready := by
  induction records with
  | nil => intro s; rfl
  | cons r rs ih =>
    intro s
    show (onSet friendly (onSet1 friendly s r) rs).ready = s.ready
    rw [ih, onSet1_ready]

theorem onDelete_ready (s : MState) (keys : List String) :
    (onDelete s keys).ready = s.ready := rfl

theorem hydrate1_ready (friendly : String → String) (s : MState) (r : Entry) :
    (hydrate1 friendly s r).ready = s.ready := rfl

theorem foldl_hydrate1_ready (friendly : String → String) (records : List Entry) :
    ∀ s : MState, (records.foldl (hydrate1 friendly) s).ready = s.ready := by
  induction records with
  | nil => intro s; rfl
  | cons r rs ih =>
    intro s
    rw [List.foldl_cons, ih, hydrate1_ready]

/-- Lexicographic order is preserved by appending suffixes to two words of the
same length that already compare strictly. -/
theorem lex_append_of_length_eq {a b x y : List Char}
    (hl : a.length = b.length) (h : List.Lex (fun c d => c < d) a b) :
    List.Lex (fun c d => c < d) (a ++ x) (b ++ y) := by
  induction h with
  | nil => simp at hl
  | rel hcd => exact List.Lex.rel hcd
  | cons _ ih => exact List.Lex.cons (ih (by simpa using hl))

theorem string_lt_append_of_length_eq {a b x y : String}
    (hl : a.length = b.length) (h : a.toList < b.toList) : (a ++ x) < (b ++ y) := by
  rw [String.lt_iff_toList_lt]
  have hx : (a ++ x).toList = a.toList ++ x.toList := by simp
  have hy : (b ++ y).toList = b.toList ++ y.toList := by simp
  rw [hx, hy]
  exact lex_append_of_length_eq hl h

theorem mem_entryKeys {s : MState} {k : String} :
    k ∈ entryKeys s ↔
      ∃ i ∈ s.entries, ∃ d, heapFind s.heap i = some d ∧ d.key = k := by
  simp only [entryKeys, entryVals, List.mem_map, List.mem_filterMap]
  constructor
  · rintro ⟨d, ⟨i, hi, hf⟩, hk⟩
    exact ⟨i, hi, d, hf, hk⟩
  · rintro ⟨i, hi, d, hf, hk⟩
    exact ⟨d, ⟨i, hi, hf⟩, hk⟩

theorem mem_cacheKeys {s : MState} {k : String} :
    k ∈ cacheKeys s ↔ ∃ p ∈ s.cache, p.1 = k := by
  simp only [cacheKeys, List.mem_map]

theorem keepOnDelete_some {hp : List (Nat × Deletion)} {ks : List String} {i : Nat}
    {d : Deletion} (hf : heapFind hp i = some d) :
    keepOnDelete hp ks i = !(hasKey ks d.key) := by
  rw [keepOnDelete, hf]

theorem keepOnDelete_none {hp : List (Nat × Deletion)} {ks : List String} {i : Nat}
    (hf : heapFind hp i = none) : keepOnDelete hp ks i = true := by
  rw [keepOnDelete, hf]

theorem filterMap_find_filter (hp : List (Nat × Deletion)) (ks : List String) :
    ∀ l : List Nat,
      (l.filter (keepOnDelete hp ks)).filterMap (fun i => heapFind hp i)
      = (l.filterMap (fun i => heapFind hp i)).filter (fun d => !(hasKey ks d.key)) := by
  intro l
  induction l with
  | nil => rfl
  | cons i rest ih =>
    cases hfind : heapFind hp i with
    | none =>
      rw [List.filter_cons, keepOnDelete_none hfind, if_pos rfl, List.filterMap_cons, hfind,
        List.filterMap_cons, hfind, ih]
    | some d =>
      cases hk : hasKey ks d.key with
      | false =>
        simp [List.filter_cons, List.filterMap_cons, keepOnDelete_some hfind, hfind, hk, ih]
      | true =>
        simp [List.filter_cons, List.filterMap_cons, keepOnDelete_some hfind, hfind, hk, ih]

theorem mapGet_some_mem {c : List (String × Nat)} {k : String} {v : Nat}
    (h : mapGet c k = some v) : (k, v) ∈ c := by
  induction c with
  | nil => simp [mapGet] at h
  | cons q qs ih =>
    by_cases hq : q.1 = k
    · rw [mapGet, if_pos hq] at h
      injection h with h
      have hkv : (k, v) = q := by
        cases q
        simp only [Prod.mk.injEq]
        exact ⟨hq.symm, h.symm⟩
      rw [hkv]
      exact List.mem_cons_self _ _
    · rw [mapGet, if_neg hq] at h
      exact List.mem_cons_of_mem _ (ih h)

/-- The cached branch of the `onSet` handler, as a record equation. -/
theorem onSet1_some_eq (friendly : String → String) (s : MState) (r : Entry) (id : Nat)
    (hc : mapGet s.cache r.key = some id) :
    onSet1 friendly s r = { s with heap := heapWrite s.heap id (fun d =>
      { d with deleted_at := ⟨r.value.deleted_at⟩, item := r.value.item }) } := by
  rw [onSet1.eq_def, hc]

/-- The fresh branch of the `onSet` handler, as a record equation. -/
theorem onSet1_none_eq (friendly : String → String) (s : MState) (r : Entry)
    (hc : mapGet s.cache r.key = none) :
    onSet1 friendly s r =
      { ready := s.ready,
        entries := s.entries ++ [s.nextId],
        cache := mapSet s.cache r.key s.nextId,
        heap := s.heap ++ [(s.nextId, src2state friendly r)],
        nextId := s.nextId + 1 } := by
  rw [onSet1.eq_def, hc]
  rfl

/-- The hydration-loop step, as a record equation. -/
theorem hydrate1_eq (friendly : String → String) (s : MState) (r : Entry) :
    hydrate1 friendly s r =
      { ready := s.ready,
        entries := s.entries ++ [s.nextId],
        cache := mapSet s.cache r.key s.nextId,
        heap := s.heap ++ [(s.nextId, src2state friendly r)],
        nextId := s.nextId + 1 } := rfl

theorem inv_init : ModelInv initState := by
  refine ⟨?_, ?_, ?_, ?_, ?_⟩ <;> simp [initState]

theorem inv_insertNew {s : MState} (inv : ModelInv s) (k : String) (d : Deletion)
    (hk : d.key = k) :
    ModelInv
        { ready := s.ready,
          entries := s.entries ++ [s.nextId],
          cache := mapSet s.cache k s.nextId,
          heap := s.heap ++ [(s.nextId, d)],
          nextId := s.nextId + 1 } := by
  have hfresh : heapFind s.heap s.nextId = none :=
    heapFind_eq_none fun p hp => Nat.ne_of_lt (inv.heapLt p hp)
  have hfindNew : heapFind (s.heap ++ [(s.nextId, d)]) s.nextId = some d := by
    rw [heapFind_append_none hfresh, heapFind, if_pos rfl]
  refine ⟨?_, ?_, ?_, ?_, ?_⟩
  · intro i hi
    rcases List.mem_append.mp hi with hi | hi
    · rcases inv.entriesAlloc i hi with ⟨d0, hd0⟩
      exact ⟨d0, heapFind_append_some hd0⟩
    · rw [List.mem_singleton.mp hi]
      exact ⟨d, hfindNew⟩
  · intro p hp
    rcases mem_mapSet hp with hp | hp
    · subst hp
      exact ⟨List.mem_append.mpr (Or.inr (List.mem_singleton.mpr rfl)), d, hfindNew, hk⟩
    · rcases inv.cacheWf p hp with ⟨hmem, d0, hd0, hkey⟩
      exact ⟨List.mem_append.mpr (Or.inl hmem), d0, heapFind_append_some hd0, hkey⟩
  · intro i hi d1 hd1
    show d1.key ∈ (mapSet s.cache k s.nextId).map (fun p => p.1)
    rcases List.mem_append.mp hi with hi | hi
    · rcases inv.entriesAlloc i hi with ⟨d0, hd0⟩
      rw [heapFind_append_some hd0] at hd1
      injection hd1 with hd1
      subst hd1
      exact mem_keys_mapSet_of (inv.entryKeysCached i hi d0 hd0)
    · rw [List.mem_singleton.mp hi] at hd1
      rw [hfindNew] at hd1
      injection hd1 with hd1
      subst hd1
      rw [hk]
      exact self_mem_keys_mapSet _ _ _
  · intro i hi
    rcases List.mem_append.mp hi with hi | hi
    · exact Nat.lt_trans (inv.entriesLt i hi) (Nat.lt_succ_self _)
    · rw [List.mem_singleton.mp hi]
      exact Nat.lt_succ_self _
  · intro p hp
    rcases List.mem_append.mp hp with hp | hp
    · exact Nat.lt_trans (inv.heapLt p hp) (Nat.lt_succ_self _)
    · rw [List.mem_singleton.mp hp]
      exact Nat.lt_succ_self _

theorem inv_hydrate1 {s : MState} (friendly : String → String) (r : Entry)
    (inv : ModelInv s) : ModelInv (hydrate1 friendly s r) := by
  rw [hydrate1_eq]
  exact inv_insertNew inv r.key (src2state friendly r) rfl

theorem inv_onSet1 {s : MState} (friendly : String → String) (r : Entry)
    (inv : ModelInv s) : ModelInv (onSet1 friendly s r) := by
  cases hc : mapGet s.cache r.key with
  | none =>
    rw [onSet1_none_eq friendly s r hc]
    exact inv_insertNew inv r.key (src2state friendly r) rfl
  | some id =>
    rw [onSet1_some_eq friendly s r id hc]
    refine ⟨?_, ?_, ?_, ?_, ?_⟩
    · intro i hi
      rcases inv.entriesAlloc i hi with ⟨d0, hd0⟩
      rw [heapFind_heapWrite]
      by_cases hii : i = id
      · subst hii
        rw [if_pos rfl, hd0]
        exact ⟨_, rfl⟩
      · rw [if_neg hii]
        exact ⟨d0, hd0⟩
    · intro p hp
      rcases inv.cacheWf p hp with ⟨hmem, d0, hd0, hkey⟩
      refine ⟨hmem, ?_⟩
      rw [heapFind_heapWrite]
      by_cases hii : p.2 = id
      · rw [if_pos hii, hd0]
        exact ⟨_, rfl, hkey⟩
      · rw [if_neg hii]
        exact ⟨d0, hd0, hkey⟩
    · intro i hi d1 hd1
      have hi2 : i ∈ s.entries := hi
      rw [heapFind_heapWrite] at hd1
      rcases inv.entriesAlloc i hi2 with ⟨d0, hd0⟩
      show d1.key ∈ cacheKeys s
      by_cases hii : i = id
      · rw [if_pos hii, hd0] at hd1
        injection hd1 with hd1
        have hkeq : d1.key = d0.key := by rw [← hd1]
        rw [hkeq]
        exact inv.entryKeysCached i hi2 d0 hd0
      · rw [if_neg hii, hd0] at hd1
        injection hd1 with hd1
        subst hd1
        exact inv.entryKeysCached i hi2 d0 hd0
    · exact inv.entriesLt
    · intro p hp
      have hp2 : p ∈ heapWrite s.heap id (fun d =>
          { d with deleted_at := ⟨r.value.deleted_at⟩, item := r.value.item }) := hp
      rcases mem_heapWrite hp2 with ⟨q, hq, hpq⟩
      rw [hpq]
      exact inv.heapLt q hq

theorem inv_onSet {friendly : String → String} (records : List Entry) :
    ∀ s : MState, ModelInv s → ModelInv (onSet friendly s records) := by
  induction records with
  | nil => exact fun s inv => inv
  | cons r rs ih =>
    intro s inv
    exact ih (onSet1 friendly s r) (inv_onSet1 friendly r inv)

theorem inv_onDelete {s : MState} (ks : List String) (inv : ModelInv s) :
    ModelInv (onDelete s ks) := by
  refine ⟨?_, ?_, ?_, ?_, ?_⟩
  · intro i hi
    exact inv.entriesAlloc i (List.mem_of_mem_filter hi)
  · intro p hp
    rcases mem_foldl_mapDelete.mp hp with ⟨hmem, hkeep⟩
    rcases inv.cacheWf p hmem with ⟨hent, d0, hd0, hkey⟩
    refine ⟨List.mem_filter.mpr ⟨hent, ?_⟩, d0, hd0, hkey⟩
    rw [keepOnDelete_some hd0, hkey, hkeep]
    rfl
  · intro i hi d1 hd1
    have hent := List.mem_filter.mp hi
    have hd1s : heapFind s.heap i = some d1 := hd1
    have hkeep : hasKey ks d1.key = false := by
      have hpred := hent.2
      rw [keepOnDelete_some hd1s] at hpred
      simpa using hpred
    rcases mem_cacheKeys.mp (inv.entryKeysCached i hent.1 d1 hd1s) with ⟨p, hp, hpk⟩
    apply mem_cacheKeys.mpr
    refine ⟨p, ?_, hpk⟩
    show p ∈ ks.foldl mapDelete s.cache
    exact mem_foldl_mapDelete.mpr ⟨hp, by rw [hpk, hkeep]⟩
  · intro i hi
    exact inv.entriesLt i (List.mem_of_mem_filter hi)
  · exact inv.heapLt

theorem inv_fin {s : MState} (inv : ModelInv s) : ModelInv { s with ready := true } := by
  rcases inv with ⟨h1, h2, h3, h4, h5⟩
  exact ⟨h1, h2, h3, h4, h5⟩

theorem reachable_inv {friendly : String → String} {s : MState}
    (h : Reachable friendly s) : ModelInv s := by
  induction h with
  | init => exact inv_init
  | set records _ ih => exact inv_onSet records _ ih
  | del keys _ ih => exact inv_onDelete keys ih
  | hyd r _ ih => exact inv_hydrate1 friendly r ih
  | fin _ ih => exact inv_fin ih

/-! ### The claims -/

/-- Claim C3: in every state reachable by any interleaving of hydration
steps, set notifications and delete notifications from the initial empty
state, the set of keys occurring in `state.entries` equals the set of keys
in the entry cache. -/
theorem C3_entries_cache_key_bijection (friendly : String → String) (s : MState)
    (h : Reachable friendly s) : ∀ k : String, k ∈ entryKeys s ↔ k ∈ cacheKeys s := by
  intro k
  have inv := reachable_inv h
  constructor
  · intro hk
    rcases mem_entryKeys.mp hk with ⟨i, hi, d, hf, hkey⟩
    exact hkey ▸ inv.entryKeysCached i hi d hf
  · intro hk
    rcases mem_cacheKeys.mp hk with ⟨p, hp, hpk⟩
    rcases inv.cacheWf p hp with ⟨hmem, d, hf, hkey⟩
    exact mem_entryKeys.mpr ⟨p.2, hmem, d, hf, hkey.trans hpk⟩

/-- Claim C3, witness: the key-set equation evaluated in the concrete
reachable state reached by one set notification. -/
theorem C3_witness :
    keyK ∈ entryKeys (onSet friendlyFolderName initState [recK])
      ↔ keyK ∈ cacheKeys (onSet friendlyFolderName initState [recK]) :=
  C3_entries_cache_key_bijection friendlyFolderName _
    (Reachable.set [recK] Reachable.init) keyK

/-- Claim C2 (code bug): when a set notification for a key arrives before
the hydration loop reads the record with that key, the hydration step
appends a second `Deletion` with the same key instead of updating the
cached one in place, so `entries` holds a duplicate key; the spec requires
exactly one Deletion per distinct key. -/
theorem C2_hydration_duplicate :
    (hydrate1 friendlyFolderName (onSet friendlyFolderName initState [recK]) recK).entries.length
        = 2
  ∧ entryKeys (hydrate1 friendlyFolderName (onSet friendlyFolderName initState [recK]) recK)
        = [keyK, keyK]
  ∧ cacheKeys (hydrate1 friendlyFolderName (onSet friendlyFolderName initState [recK]) recK)
        = [keyK] := by
  refine ⟨rfl, ?_, rfl⟩
  decide

/-- Claim C5: neither `add` nor `drop` mutates the in-memory state on its
own return path, whether the store call succeeds or raises, and a store
error is propagated unchanged to the caller. -/
theorem C5_add_drop_no_mutation {ε : Type} (now rand key : String) (item : DeletedItem)
    (res : Except ε Unit) (e : ε) (s : MState) :
    (add now rand item res s).2 = s
  ∧ (drop key res s).2 = s
  ∧ (add now rand item (Except.error e) s).1 = Except.error e
  ∧ (drop key (Except.error e) s).1 = Except.error e := by
  refine ⟨?_, rfl, rfl, rfl⟩
  cases res <;> rfl

/-- Claim C7: `ready` is false at construction; the notification handlers
and single hydration steps never change it; a hydration run that finishes
without error sets it to true; a failed hydration run leaves it unchanged
(false) and leaves exactly the records read before the failure; `add` and
`drop` leave the state, hence `ready`, untouched. -/
theorem C7_ready_lifecycle {ε : Type} (friendly : String → String) (s : MState)
    (records : List Entry) (keys : List String) (r : Entry)
    (now rand key : String) (item : DeletedItem) (res : Except ε Unit) :
    initState.ready = false
  ∧ (onSet friendly s records).ready = s.ready
  ∧ (onDelete s keys).ready = s.ready
  ∧ (hydrate1 friendly s r).ready = s.ready
  ∧ (hydrationRun friendly s records true).ready = true
  ∧ hydrationRun friendly s records false = records.foldl (hydrate1 friendly) s
  ∧ (hydrationRun friendly s records false).ready = s.ready
  ∧ (add now rand item res s).2.ready = s.ready
  ∧ (drop key res s).2.ready = s.ready := by
  refine ⟨rfl, onSet_ready friendly records s, rfl, rfl, rfl, rfl, ?_, ?_, rfl⟩
  · exact foldl_hydrate1_ready friendly records s
  · cases res <;> rfl

/-- Claim C10: a delete notification keeps the surviving `entries` elements
(those whose key is not in the batch) in their previous relative order with
unchanged fields: the new value sequence is the filtration of the old. -/
theorem C10_delete_preserves_survivors (s : MState) (ks : List String) :
    entryVals (onDelete s ks) = (entryVals s).filter (fun d => !(hasKey ks d.key)) := by
  show ((s.entries.filter (keepOnDelete s.heap ks)).filterMap (fun i => heapFind s.heap i))
      = (s.entries.filterMap (fun i => heapFind s.heap i)).filter (fun d => !(hasKey ks d.key))
  exact filterMap_find_filter s.heap ks s.entries

/-- Claim C1 (counterexample): applying the same set notification twice for
a folder-like record does not leave the same final fields as applying it
once -- the second application stores the raw item, losing the
display-formatted top-level title. -/
theorem C1_counterexample :
    entryVals (onSet friendlyFolderName (onSet friendlyFolderName initState [recK]) [recK])
      ≠ entryVals (onSet friendlyFolderName initState [recK]) := by
  decide

/-- Claim C1 (amended): applying the same set notification twice for a key
leaves `entries` and the cache where the single application put them and
leaves the same key and `deleted_at`, but the final `item` is the raw
stored item; only for bookmark-like items does this coincide with the
result of applying the notification once. -/
theorem C1_amended (friendly : String → String) (s : MState) (r : Entry)
    (hfresh : mapGet s.cache r.key = none)
    (halloc : ∀ p ∈ s.heap, p.1 < s.nextId) :
    (onSet1 friendly (onSet1 friendly s r) r).entries = (onSet1 friendly s r).entries
  ∧ (onSet1 friendly (onSet1 friendly s r) r).cache = (onSet1 friendly s r).cache
  ∧ heapFind (onSet1 friendly s r).heap s.nextId = some (src2state friendly r)
  ∧ heapFind (onSet1 friendly (onSet1 friendly s r) r).heap s.nextId
      = some { key := r.key, deleted_at := ⟨r.value.deleted_at⟩, item := r.value.item }
  ∧ (src2state friendly r).key = r.key
  ∧ (src2state friendly r).deleted_at = ⟨r.value.deleted_at⟩
  ∧ (∀ tb u fav, r.value.item = .bookmark tb u fav →
      heapFind (onSet1 friendly (onSet1 friendly s r) r).heap s.nextId
        = heapFind (onSet1 friendly s r).heap s.nextId) := by
  have h1 := onSet1_none_eq friendly s r hfresh
  have hget2 : mapGet (onSet1 friendly s r).cache r.key = some s.nextId := by
    rw [h1]
    exact mapGet_mapSet_self s.cache r.key s.nextId
  have h2 := onSet1_some_eq friendly (onSet1 friendly s r) r s.nextId hget2
  have hfind1 : heapFind (onSet1 friendly s r).heap s.nextId
      = some (src2state friendly r) := by
    rw [h1]
    show heapFind (s.heap ++ [(s.nextId, src2state friendly r)]) s.nextId = _
    rw [heapFind_append_none (heapFind_eq_none fun p hp => Nat.ne_of_lt (halloc p hp)),
      heapFind, if_pos rfl]
  have hfind2 : heapFind (onSet1 friendly (onSet1 friendly s r) r).heap s.nextId
      = some { key := r.key, deleted_at := ⟨r.value.deleted_at⟩, item := r.value.item } := by
    rw [h2]
    show heapFind (heapWrite (onSet1 friendly s r).heap s.nextId (fun d =>
      { d with deleted_at := ⟨r.value.deleted_at⟩, item := r.value.item })) s.nextId = _
    rw [heapFind_heapWrite, if_pos rfl, hfind1]
    rfl
  refine ⟨by rw [h2], by rw [h2], hfind1, hfind2, rfl, rfl, ?_⟩
  intro tb u fav hitem
  rw [hfind2, hfind1]
  simp [src2state, hitem]

/-- Claim C1, witness: the amended statement evaluated for the fresh model
and the folder-like record `recK`. -/
theorem C1_amended_witness :
    (onSet1 friendlyFolderName (onSet1 friendlyFolderName initState recK) recK).entries
        = (onSet1 friendlyFolderName initState recK).entries
  ∧ (onSet1 friendlyFolderName (onSet1 friendlyFolderName initState recK) recK).cache
        = (onSet1 friendlyFolderName initState recK).cache
  ∧ heapFind (onSet1 friendlyFolderName initState recK).heap initState.nextId
        = some (src2state friendlyFolderName recK)
  ∧ heapFind (onSet1 friendlyFolderName (onSet1 friendlyFolderName initState recK) recK).heap
        initState.nextId
        = some { key := recK.key, deleted_at := ⟨recK.value.deleted_at⟩,
                 item := recK.value.item }
  ∧ (src2state friendlyFolderName recK).key = recK.key
  ∧ (src2state friendlyFolderName recK).deleted_at = ⟨recK.value.deleted_at⟩
  ∧ (∀ tb u fav, recK.value.item = .bookmark tb u fav →
      heapFind (onSet1 friendlyFolderName (onSet1 friendlyFolderName initState recK) recK).heap
          initState.nextId
        = heapFind (onSet1 friendlyFolderName initState recK).heap initState.nextId) :=
  C1_amended friendlyFolderName initState recK (by decide) (by decide)

/-- Claim C4: the derivation used by hydration and by the fresh branch of
the set handler formats only the top-level folder title with the external
formatter, keeps `children` exactly as stored, and keeps bookmark-like
items unchanged; both insertion paths allocate exactly the derived value. -/
theorem C4_derivation (friendly : String → String) (s : MState) (r : Entry)
    (k da t tb u : String) (ch : List DeletedItem) (fav : Option String)
    (hfresh : mapGet s.cache r.key = none) :
    src2state friendly { key := k, value := { deleted_at := da, item := .folder t ch } }
      = { key := k, deleted_at := ⟨da⟩, item := .folder (friendly t) ch }
  ∧ src2state friendly { key := k, value := { deleted_at := da, item := .bookmark tb u fav } }
      = { key := k, deleted_at := ⟨da⟩, item := .bookmark tb u fav }
  ∧ (hydrate1 friendly s r).heap = s.heap ++ [(s.nextId, src2state friendly r)]
  ∧ (onSet1 friendly s r).heap = s.heap ++ [(s.nextId, src2state friendly r)] := by
  refine ⟨rfl, rfl, rfl, ?_⟩
  rw [onSet1_none_eq friendly s r hfresh]

/-- Claim C4, witness: the derivation evaluated on a concrete folder-like
and a concrete bookmark-like record. -/
theorem C4_witness :
    src2state friendlyFolderName
        { key := keyK, value := { deleted_at := tsA, item := .folder rawTitle [] } }
      = { key := keyK, deleted_at := ⟨tsA⟩, item := .folder (friendlyFolderName rawTitle) [] }
  ∧ src2state friendlyFolderName
        { key := keyK, value := { deleted_at := tsA, item := .bookmark bTitle sampleUrl none } }
      = { key := keyK, deleted_at := ⟨tsA⟩, item := .bookmark bTitle sampleUrl none }
  ∧ (hydrate1 friendlyFolderName initState recK).heap
      = initState.heap ++ [(initState.nextId, src2state friendlyFolderName recK)]
  ∧ (onSet1 friendlyFolderName initState recK).heap
      = initState.heap ++ [(initState.nextId, src2state friendlyFolderName recK)] :=
  C4_derivation friendlyFolderName initState recK keyK tsA rawTitle bTitle sampleUrl [] none
    (by decide)

/-- Claim C6 (counterexample): two `add` calls that read the same clock
value (the first completing before the second begins, within one
millisecond) can produce a later key that is lexicographically smaller,
because only the random suffixes differ. -/
theorem C6_counterexample :
    (@add Unit tsA randZ sampleItem (Except.ok ()) initState).1
        = Except.ok { key := tsA ++ add.keySep ++ randZ,
                      value := { deleted_at := tsA, item := sampleItem } }
  ∧ (@add Unit tsA randA sampleItem (Except.ok ()) initState).1
        = Except.ok { key := tsA ++ add.keySep ++ randA,
                      value := { deleted_at := tsA, item := sampleItem } }
  ∧ ¬ ((tsA ++ add.keySep ++ randZ) < (tsA ++ add.keySep ++ randA)) := by
  refine ⟨rfl, rfl, ?_⟩
  rw [String.lt_iff_toList_lt]
  decide

/-- Claim C6 (amended): an `add` call returns the entry whose key is the
timestamp, the separator and the random suffix and whose item is exactly
the input; the key of a later call is lexicographically greater whenever
the later timestamp string is strictly greater (the two same-format
timestamps having equal length); with a 4-character suffix the key length
is the timestamp length plus five. -/
theorem C6_amended {ε : Type} (t1 r1 t2 r2 : String) (item1 item2 : DeletedItem)
    (s1 s2 : MState) (hlen : t1.length = t2.length) (hlt : t1.toList < t2.toList) :
    (@add ε t1 r1 item1 (Except.ok ()) s1).1
        = Except.ok { key := t1 ++ add.keySep ++ r1,
                      value := { deleted_at := t1, item := item1 } }
  ∧ (@add ε t2 r2 item2 (Except.ok ()) s2).1
        = Except.ok { key := t2 ++ add.keySep ++ r2,
                      value := { deleted_at := t2, item := item2 } }
  ∧ (t1 ++ add.keySep ++ r1) < (t2 ++ add.keySep ++ r2)
  ∧ (r1.length = 4 → (t1 ++ add.keySep ++ r1).length = t1.length + 5) := by
  refine ⟨rfl, rfl, ?_, ?_⟩
  · apply string_lt_append_of_length_eq
    · show (t1 ++ add.keySep).length = (t2 ++ add.keySep).length
      rw [String.length_append, String.length_append, hlen]
    · show (t1 ++ add.keySep).toList < (t2 ++ add.keySep).toList
      have e1 : (t1 ++ add.keySep).toList = t1.toList ++ add.keySep.toList := by simp
      have e2 : (t2 ++ add.keySep).toList = t2.toList ++ add.keySep.toList := by simp
      rw [e1, e2]
      exact lex_append_of_length_eq hlen hlt
  · intro h4
    rw [String.length_append, String.length_append, h4]
    rfl

/-- Claim C6, witness: the amended statement evaluated on two concrete
calls one millisecond apart. -/
theorem C6_amended_witness :
    (@add Unit tsA randZ sampleItem (Except.ok ()) initState).1
        = Except.ok { key := tsA ++ add.keySep ++ randZ,
                      value := { deleted_at := tsA, item := sampleItem } }
  ∧ (@add Unit tsB randA sampleItem (Except.ok ()) initState).1
        = Except.ok { key := tsB ++ add.keySep ++ randA,
                      value := { deleted_at := tsB, item := sampleItem } }
  ∧ (tsA ++ add.keySep ++ randZ) < (tsB ++ add.keySep ++ randA)
  ∧ (randZ.length = 4 → (tsA ++ add.keySep ++ randZ).length = tsA.length + 5) :=
  C6_amended tsA randZ tsB randA sampleItem sampleItem initState initState
    (by decide) (by decide)

/-- Claim C8: a set notification for a key already in the cache changes
only the `deleted_at` and `item` fields of that one object: `entries`, the
cache, `ready` and the allocator are untouched, every other object is
untouched, and the object keeps its identity and its `key` field. -/
theorem C8_overwrite_in_place (friendly : String → String) (s : MState) (r : Entry)
    (id : Nat) (hc : mapGet s.cache r.key = some id) :
    (onSet1 friendly s r).entries = s.entries
  ∧ (onSet1 friendly s r).cache = s.cache
  ∧ (onSet1 friendly s r).ready = s.ready
  ∧ (onSet1 friendly s r).nextId = s.nextId
  ∧ (∀ j, j ≠ id → heapFind (onSet1 friendly s r).heap j = heapFind s.heap j)
  ∧ heapFind (onSet1 friendly s r).heap id
      = (heapFind s.heap id).map (fun d =>
          { key := d.key, deleted_at := ⟨r.value.deleted_at⟩, item := r.value.item }) := by
  rw [onSet1_some_eq friendly s r id hc]
  refine ⟨rfl, rfl, rfl, rfl, ?_, ?_⟩
  · intro j hj
    show heapFind (heapWrite s.heap id (fun d =>
      { d with deleted_at := ⟨r.value.deleted_at⟩, item := r.value.item })) j
      = heapFind s.heap j
    rw [heapFind_heapWrite, if_neg hj]
  · show heapFind (heapWrite s.heap id (fun d =>
      { d with deleted_at := ⟨r.value.deleted_at⟩, item := r.value.item })) id
      = (heapFind s.heap id).map (fun d =>
          { key := d.key, deleted_at := ⟨r.value.deleted_at⟩, item := r.value.item })
    rw [heapFind_heapWrite, if_pos rfl]

/-- Claim C8, witness: the frame statement evaluated where the cached
folder Deletion under `keyK` is overwritten by a bookmark record. -/
theorem C8_witness :
    (onSet1 friendlyFolderName s1K recB).entries = s1K.entries
  ∧ (onSet1 friendlyFolderName s1K recB).cache = s1K.cache
  ∧ (onSet1 friendlyFolderName s1K recB).ready = s1K.ready
  ∧ (onSet1 friendlyFolderName s1K recB).nextId = s1K.nextId
  ∧ (∀ j, j ≠ 0 → heapFind (onSet1 friendlyFolderName s1K recB).heap j = heapFind s1K.heap j)
  ∧ heapFind (onSet1 friendlyFolderName s1K recB).heap 0
      = (heapFind s1K.heap 0).map (fun d =>
          { key := d.key, deleted_at := ⟨recB.value.deleted_at⟩, item := recB.value.item }) :=
  C8_overwrite_in_place friendlyFolderName s1K recB 0 (by decide)

/-- Claim C9: a delete notification for a key bound neither in the cache
nor in `entries` leaves the whole state exactly as it was. -/
theorem C9_delete_absent_noop (s : MState) (k : String)
    (hc : mapGet s.cache k = none) (he : k ∉ entryKeys s) :
    onDelete s [k] = s := by
  have hcache : [k].foldl mapDelete s.cache = s.cache := mapDelete_of_get_none hc
  have hent : s.entries.filter (keepOnDelete s.heap [k]) = s.entries := by
    apply List.filter_eq_self.mpr
    intro i hi
    cases hf : heapFind s.heap i with
    | none => exact keepOnDelete_none hf
    | some d =>
      rw [keepOnDelete_some hf]
      have hdk : d.key ≠ k := fun he2 => he (mem_entryKeys.mpr ⟨i, hi, d, hf, he2⟩)
      have hhk : hasKey [k] d.key = false := by
        rw [hasKey, if_neg (fun h2 => hdk h2.symm), hasKey]
      rw [hhk]
      rfl
  rw [onDelete, hcache, hent]

/-- Claim C9, witness: deleting the absent key `keyM` in the concrete
one-entry state is the identity. -/
theorem C9_witness : onDelete s1K [keyM] = s1K :=
  C9_delete_absent_noop s1K keyM (by decide) (by decide)
